import Mathlib

/-!
Verification development for the bottom-up rewrite system (BURS) generator
in `ppci/pyburg.py`.  The grammar model (`BurgSystem`, `Rule`, `add_rule`,
`non_term`, `add_terminal`), the pattern compiler (`compute_kids`,
`emittest`) and the shape of the generated labeling code (`emit_record`,
`emitcase`, `emit_state`, the `gen` driver) are translated from the source.
The runtime classes `Tree`, `State` and `BaseMatcher` live in `ppci/tree.py`,
which is not part of the sources at hand; those parts (`State.set_cost`,
the bottom-up `burm_label` traversal, the top-down `apply_rules` selection)
are modelled from the specification and marked as such.
-/

namespace PyBurg

/-- Concrete tree node (models `ppci.tree.Tree`): a terminal name, a value
payload and an ordered list of children.  Rule patterns use the same type. -/
inductive TTree where
  | node (name : String) (value : Int) (children : List TTree)

def TTree.name : TTree → String
  | .node n _ _ => n

def TTree.value : TTree → Int
  | .node _ v _ => v

def TTree.children : TTree → List TTree
  | .node _ _ cs => cs

/-- Python's `str.strip()`: remove leading and trailing whitespace. -/
def pyStrip (s : String) : String :=
  ⟨(((s.data.dropWhile Char.isWhitespace).reverse).dropWhile Char.isWhitespace).reverse⟩

/-- Helper of `pySplitSemi`: accumulate the current piece (reversed) while
scanning for semicolons. -/
def splitSemiAux : List Char → List Char → List String
  | [], acc => [⟨acc.reverse⟩]
  | c :: rest, acc =>
    if c = ';' then ⟨acc.reverse⟩ :: splitSemiAux rest []
    else splitSemiAux rest (c :: acc)

/-- Python's `str.split(';')`: split on every semicolon, keeping empty
pieces. -/
def pySplitSemi (s : String) : List String :=
  splitSemiAux s.data []

/-- Modelled from the spec: a per-node State is a mapping from non-terminal
name to a pair (best cost, winning rule number), monotonically improved. -/
abbrev NState := List (String × Nat × Nat)

def NState.lookup : NState → String → Option (Nat × Nat)
  | [], _ => none
  | (n, c, r) :: rest, key => if n = key then some (c, r) else NState.lookup rest key

def NState.has_goal (st : NState) (n : String) : Bool :=
  (NState.lookup st n).isSome

def NState.get_cost (st : NState) (n : String) : Nat :=
  ((NState.lookup st n).map Prod.fst).getD 0

/-- Modelled from the spec: `set_cost` records `(c, rnr)` for non-terminal `n`
when no entry exists yet or the candidate cost is strictly lower than the
existing one; equal cost keeps the earlier entry. -/
def NState.set_cost : NState → String → Nat → Nat → NState
  | [], n, c, rnr => [(n, c, rnr)]
  | (n0, c0, r0) :: rest, n, c, rnr =>
    if n0 = n then
      (if c < c0 then (n0, c, rnr) :: rest else (n0, c0, r0) :: rest)
    else
      (n0, c0, r0) :: NState.set_cost rest n c rnr

/-- Labeled tree: a concrete tree node carrying the State assigned during
the label phase. -/
inductive LTree where
  | node (name : String) (value : Int) (children : List LTree) (state : NState)

def LTree.name : LTree → String
  | .node n _ _ _ => n

def LTree.value : LTree → Int
  | .node _ v _ _ => v

def LTree.children : LTree → List LTree
  | .node _ _ cs _ => cs

def LTree.state : LTree → NState
  | .node _ _ _ st => st

def LTree.setState : LTree → NState → LTree
  | .node n v cs _, st => .node n v cs st

/-- A rewrite rule (class `Rule` in the source): left-hand-side non-terminal,
pattern tree, cost, optional acceptance text, action template and the 1-based
sequence number `nr`. -/
structure Rule where
  non_term : String
  tree : TTree
  cost : Nat
  acceptance : Option String
  template : String
  nr : Nat

/-- Error raised during grammar construction: `BurgError` for redefining a
terminal, `assertFail` for the `install` type assertion. -/
inductive BurgError where
  | cannotRedefine
  | assertFail
deriving DecidableEq

/-- The grammar model (class `BurgSystem`): ordered rule list, terminal names
in installation order, non-terminals (each with its chain-rule list) in
installation order, and the goal symbol. -/
structure BurgSystem where
  rules : List Rule
  terminals : List String
  nonterms : List (String × List Rule)
  goal : Option String

def BurgSystem.fresh : BurgSystem := ⟨[], [], [], none⟩

def BurgSystem.non_terminals (s : BurgSystem) : List String :=
  s.nonterms.map Prod.fst

def BurgSystem.chainRules (s : BurgSystem) (n : String) : List Rule :=
  match s.nonterms.find? (fun p => p.1 == n) with
  | some p => p.2
  | none => []

/-- Success path of `BurgSystem.non_term`: set the goal when it is still
unset (falsy), then install the name as a non-terminal if absent. -/
def BurgSystem.installNT (s : BurgSystem) (name : String) : BurgSystem :=
  ⟨s.rules, s.terminals,
   (if s.non_terminals.contains name then s.nonterms else s.nonterms ++ [(name, [])]),
   (if (s.goal.getD "").data.isEmpty then some name else s.goal)⟩

/-- `BurgSystem.non_term` from the source: raises when the name is a
terminal, otherwise runs the goal update and installation of
`BurgSystem.installNT`. -/
def BurgSystem.non_term (s : BurgSystem) (name : String) : Except BurgError BurgSystem :=
  match s.terminals.contains name with
  | true => .error .cannotRedefine
  | false => .ok (s.installNT name)

/-- Append a rule to the chain-rule list of the named non-terminal
(`self.non_term(tree.name).chain_rules.append(rule)` in the source). -/
def BurgSystem.appendChain (s : BurgSystem) (name : String) (r : Rule) : BurgSystem :=
  { s with nonterms := s.nonterms.map (fun p => if p.1 == name then (p.1, p.2 ++ [r]) else p) }

/-- `BurgSystem.add_terminal` from the source: `install(terminal, Term)`,
idempotent, with the `install` assertion failing when the name is already a
non-terminal. -/
def BurgSystem.add_terminal (s : BurgSystem) (t : String) : Except BurgError BurgSystem :=
  if s.non_terminals.contains t then .error .assertFail
  else .ok (if s.terminals.contains t then s
            else { s with terminals := s.terminals ++ [t] })

/-- The rule record built by `add_rule`: stripped template (empty becomes
`pass`) and the next sequence number. -/
def ruleOf (s : BurgSystem) (lhs : String) (tree : TTree) (cost : Nat)
    (acceptance : Option String) (template : String) : Rule :=
  ⟨lhs, tree, cost, acceptance,
   (if (pyStrip template).data.isEmpty then "pass" else pyStrip template),
   s.rules.length + 1⟩

/-- `BurgSystem.add_rule` from the source: strips the template (empty becomes
`pass`), files a chain rule on the pattern's non-terminal when the pattern
has no children and its name is not a terminal, installs the left-hand-side
non-terminal, appends the rule and numbers it with the new list length. -/
def BurgSystem.add_rule (s : BurgSystem) (lhs : String) (tree : TTree) (cost : Nat)
    (acceptance : Option String) (template : String) : Except BurgError BurgSystem :=
  let rule := ruleOf s lhs tree cost acceptance template
  let chained : Except BurgError BurgSystem :=
    match tree.children.isEmpty && !(s.terminals.contains tree.name) with
    | true =>
      match s.non_term tree.name with
      | .error e => .error e
      | .ok s2 => .ok (s2.appendChain tree.name rule)
    | false => .ok s
  match chained with
  | .error e => .error e
  | .ok s1 =>
    match s1.non_term lhs with
    | .error e => .error e
    | .ok s3 => .ok { s3 with rules := s3.rules ++ [rule] }

/-- The system produced by a successful `add_rule` call: optional chain
filing, installation of the left-hand side, appended rule list. -/
def addRuleModel (s : BurgSystem) (lhs : String) (tree : TTree) (cost : Nat)
    (acceptance : Option String) (template : String) : BurgSystem :=
  let rule := ruleOf s lhs tree cost acceptance template
  let s1 := match tree.children.isEmpty && !(s.terminals.contains tree.name) with
            | true => (s.installNT tree.name).appendChain tree.name rule
            | false => s
  let s3 := s1.installNT lhs
  { s3 with rules := s3.rules ++ [rule] }

mutual
/-- `compute_kids` from the source: hole positions (as child-index paths) and
required non-terminal names of a pattern, depth-first and left-to-right. -/
def compute_kids (nts : List String) : TTree → List Nat → List (List Nat) × List String
  | .node n _ cs, root =>
    if nts.contains n then ([root], [n])
    else compute_kids_children nts cs root 0

/-- Companion of `compute_kids`: walks a child list starting at index `i`. -/
def compute_kids_children (nts : List String) :
    List TTree → List Nat → Nat → List (List Nat) × List String
  | [], _, _ => ([], [])
  | c :: cs, root, i =>
    let hd := compute_kids nts c (root ++ [i])
    let tl := compute_kids_children nts cs root (i + 1)
    (hd.1 ++ tl.1, hd.2 ++ tl.2)
end

mutual
/-- `emittest` from the source: the generated structural test, flattened to
the list of (path, required name) equality checks in evaluation order.  The
source filters out non-terminal children and enumerates the filtered
sequence, so the emitted child index advances only over kept children. -/
def emittest (nts : List String) : TTree → List Nat → List (List Nat × String)
  | .node n _ cs, pfx => (pfx, n) :: emittest_children nts cs pfx 0

/-- Companion of `emittest`: walks the pattern's child list, skipping
non-terminal children without advancing the emitted index. -/
def emittest_children (nts : List String) :
    List TTree → List Nat → Nat → List (List Nat × String)
  | [], _, _ => []
  | c :: cs, pfx, i =>
    if nts.contains c.name then emittest_children nts cs pfx i
    else emittest nts c (pfx ++ [i]) ++ emittest_children nts cs pfx (i + 1)
end

mutual
/-- Modelled from the spec for comparison with `emittest`: the structural
test as the specification words it, where the recursive child test addresses
the child at its own position in the pattern's child list. -/
def emittest_claim (nts : List String) : TTree → List Nat → List (List Nat × String)
  | .node n _ cs, pfx => (pfx, n) :: emittest_claim_children nts cs pfx 0

/-- Companion of `emittest_claim`: child walk where every child advances the
index, non-terminal children contributing no test. -/
def emittest_claim_children (nts : List String) :
    List TTree → List Nat → Nat → List (List Nat × String)
  | [], _, _ => []
  | c :: cs, pfx, i =>
    (if nts.contains c.name then [] else emittest_claim nts c (pfx ++ [i]))
      ++ emittest_claim_children nts cs pfx (i + 1)
end

/-- Subtree of a labeled tree at a child-index path (empty path is the node
itself); `none` models the index-out-of-range failure of the generated
`tree.children[i]` accesses. -/
def subtreeAtL : LTree → List Nat → Option LTree
  | t, [] => some t
  | t, i :: rest =>
    match (LTree.children t)[i]? with
    | none => none
    | some c => subtreeAtL c rest

/-- Subtree of a concrete tree at a child-index path. -/
def subtreeAtT : TTree → List Nat → Option TTree
  | t, [] => some t
  | t, i :: rest =>
    match (TTree.children t)[i]? with
    | none => none
    | some c => subtreeAtT c rest

/-- Evaluation of a generated structural test (a left-to-right short-circuit
conjunction of name checks): `none` models a crash on a missing child, as the
generated code indexes children unconditionally once reached. -/
def evalTests (t : LTree) : List (List Nat × String) → Option Bool
  | [] => some true
  | (p, n) :: rest =>
    match subtreeAtL t p with
    | none => none
    | some s => if s.name == n then evalTests t rest else some false

/-- Evaluation of a generated kid function `lambda t: [t.children[i], ...]`:
resolves every hole path, `none` on any missing child. -/
def kidsAt (t : LTree) : List (List Nat) → Option (List LTree)
  | [] => some []
  | p :: ps =>
    match subtreeAtL t p with
    | none => none
    | some k =>
      match kidsAt t ps with
      | none => none
      | some ks => some (k :: ks)

/-- Hole paths of a rule as compiled into the generated `kid_functions`
table (computed with the system's non-terminals). -/
def ruleKids (s : BurgSystem) (r : Rule) : List (List Nat) :=
  (compute_kids s.non_terminals r.tree []).1

/-- Required categories of a rule as compiled into the generated `nts_map`
table. -/
def ruleNts (s : BurgSystem) (r : Rule) : List String :=
  (compute_kids s.non_terminals r.tree []).2

/-- Structural test of a rule as compiled by `emittest` into the generated
`burm_state` dispatch. -/
def ruleTests (s : BurgSystem) (r : Rule) : List (List Nat × String) :=
  emittest s.non_terminals r.tree []

/-- Rules compiled into the per-terminal cases of the generated `burm_state`
(`emit_state` iterates the terminals, `emitcase` keeps the rules whose
pattern root equals the terminal). -/
def labelRules (s : BurgSystem) : List Rule :=
  (s.terminals.map (fun term => s.rules.filter (fun r => r.tree.name == term))).flatten

/-- Acceptance check of a rule: the generated code calls the opaque
user-supplied routine `A{nr}` only when the rule carries acceptance text;
the routine itself is a parameter `A` of the semantics. -/
def acceptOK (A : Nat → LTree → Bool) (r : Rule) (t : LTree) : Bool :=
  match r.acceptance with
  | none => true
  | some _ => A r.nr t

/-- The candidate cost computed by the generated `emit_record` code:
`c = sum(x.state.get_cost(y) for x, y in zip(kids, nts)) + cost`. -/
def candidateCost (s : BurgSystem) (r : Rule) (kids : List LTree) : Nat :=
  (((kids.zip (ruleNts s r)).map fun kn => (LTree.state kn.1).get_cost kn.2).sum) + r.cost

/-- One generated rule case inside `burm_state` (`emitcase` + `emit_record`):
evaluate the structural test, resolve the hole kids, and when every kid has
the required category (and acceptance holds) record the candidate cost for
the rule's non-terminal followed by one `set_cost` per chain rule registered
on that non-terminal. -/
def processRule (s : BurgSystem) (A : Nat → LTree → Bool) (t : LTree) (r : Rule) :
    Option LTree :=
  match evalTests t (ruleTests s r) with
  | none => none
  | some false => some t
  | some true =>
    match kidsAt t (ruleKids s r) with
    | none => none
    | some kids =>
      if ((kids.zip (ruleNts s r)).all fun kn => (LTree.state kn.1).has_goal kn.2)
          && acceptOK A r t then
        let c := candidateCost s r kids
        let st1 := (LTree.state t).set_cost r.non_term c r.nr
        let st2 := (s.chainRules r.non_term).foldl
                    (fun acc cr => acc.set_cost cr.non_term (c + cr.cost) cr.nr) st1
        some (t.setState st2)
      else some t

/-- Sequential processing of the generated rule cases over one node. -/
def processRules (s : BurgSystem) (A : Nat → LTree → Bool) :
    LTree → List Rule → Option LTree
  | t, [] => some t
  | t, r :: rs =>
    match processRule s A t r with
    | none => none
    | some t2 => processRules s A t2 rs

/-- The generated `burm_state`: assign a fresh empty State to the node, then
run every per-terminal rule case in order. -/
def burm_state (s : BurgSystem) (A : Nat → LTree → Bool)
    (name : String) (value : Int) (lcs : List LTree) : Option LTree :=
  processRules s A (LTree.node name value lcs []) (labelRules s)

mutual
/-- Modelled from the spec: `burm_label` (from the missing `BaseMatcher`)
labels bottom-up, children fully labeled before their parent, calling the
generated `burm_state` at every node. -/
def burm_label (s : BurgSystem) (A : Nat → LTree → Bool) : TTree → Option LTree
  | .node n v cs =>
    match burm_label_list s A cs with
    | none => none
    | some lcs => burm_state s A n v lcs

/-- Companion of `burm_label`: labels a child list left to right. -/
def burm_label_list (s : BurgSystem) (A : Nat → LTree → Bool) :
    List TTree → Option (List LTree)
  | [] => some []
  | c :: cs =>
    match burm_label s A c with
    | none => none
    | some lc =>
      match burm_label_list s A cs with
      | none => none
      | some lcs => some (lc :: lcs)
end

/-- Result of applying a rule's action during selection: the rule number,
the node's name and value, and the recursively obtained hole results. -/
inductive MatchResult where
  | res (nr : Nat) (name : String) (value : Int) (args : List MatchResult)

/-- Rule lookup by sequence number (the generated tables are indexed by
`rule.nr`). -/
def findRule (s : BurgSystem) (nr : Nat) : Option Rule :=
  s.rules.find? (fun r => r.nr == nr)

mutual
/-- Modelled from the spec: `apply_rules` (from the missing `BaseMatcher`)
performs top-down, cost-optimal selection: look up the winning rule for the
requested category in the node's State, recursively select each hole at its
required category, then apply the rule's action.  The `fuel` argument is a
modelling artifact bounding the recursion depth; it decreases on every call
and any sufficiently large value yields the real behavior. -/
def apply_rules (s : BurgSystem) (A : Nat → LTree → Bool) :
    Nat → LTree → String → Option MatchResult
  | 0, _, _ => none
  | fuel + 1, t, goal =>
    match (LTree.state t).lookup goal with
    | none => none
    | some (_, nr) =>
      match findRule s nr with
      | none => none
      | some r =>
        match kidsAt t (ruleKids s r) with
        | none => none
        | some kids =>
          match apply_rules_list s A fuel (kids.zip (ruleNts s r)) with
          | none => none
          | some args => some (.res nr t.name t.value args)

/-- Companion of `apply_rules`: selects each hole kid at its required
category, left to right. -/
def apply_rules_list (s : BurgSystem) (A : Nat → LTree → Bool) :
    Nat → List (LTree × String) → Option (List MatchResult)
  | 0, _ => none
  | _ + 1, [] => some []
  | fuel + 1, kn :: rest =>
    match apply_rules s A fuel kn.1 kn.2 with
    | none => none
    | some a =>
      match apply_rules_list s A fuel rest with
      | none => none
      | some as1 => some (a :: as1)
end

mutual
/-- Post-order trace of the rule actions invoked while building a selection
result: hole actions first, then the node's own action. -/
def traceOf : MatchResult → List Nat
  | .res nr _ _ args => traceOfList args ++ [nr]

/-- Companion of `traceOf` for argument lists. -/
def traceOfList : List MatchResult → List Nat
  | [] => []
  | a :: as1 => traceOf a ++ traceOfList as1
end

mutual
/-- Modelled from the spec: a rendering of the offending tree used by the
"not covered" failure message (the `Tree.__repr__` of the missing
`ppci/tree.py`). -/
def treeStr : TTree → String
  | .node n _ cs => n ++ "(" ++ treeStrList cs ++ ")"

/-- Companion of `treeStr`: comma-separated children. -/
def treeStrList : List TTree → String
  | [] => ""
  | [c] => treeStr c
  | c :: cs => treeStr c ++ "," ++ treeStrList cs
end

/-- The failure message of the generated driver:
`raise Exception("Tree ... not covered")` naming the offending tree. -/
def notCoveredMsg (t : TTree) : String :=
  "Tree " ++ treeStr t ++ " not covered"

/-- The generated driver `gen`: label the whole tree, fail with the
"not covered" message when the root's State lacks the goal category,
otherwise run top-down selection for the goal at the root.  The inner
`Option` carries the selection fuel artifact of `apply_rules`. -/
def gen (s : BurgSystem) (A : Nat → LTree → Bool) (fuel : Nat) (t : TTree) :
    Except String (Option MatchResult) :=
  match burm_label s A t with
  | none => .error "index out of range"
  | some lt =>
    if (LTree.state lt).has_goal (s.goal.getD "") then
      .ok (apply_rules s A fuel lt (s.goal.getD ""))
    else
      .error (notCoveredMsg t)

/-- Emission of a rule's action template into the generated `P{nr}` routine
(`generate`, lines 236-237): split on semicolons, strip each piece, emit it
on its own indented line. -/
def templateLines (template : String) : List String :=
  (pySplitSemi template).map (fun piece => "        " ++ pyStrip piece)

mutual
/-- Forgets the labels of a labeled tree, recovering the input tree. -/
def eraseL : LTree → TTree
  | .node n v cs _ => .node n v (eraseLList cs)

/-- Companion of `eraseL` for child lists. -/
def eraseLList : List LTree → List TTree
  | [] => []
  | c :: cs => eraseL c :: eraseLList cs
end

/-- Paths all resolvable inside a concrete tree. -/
def pathsOK (t : TTree) (ps : List (List Nat)) : Bool :=
  ps.all (fun p => (subtreeAtT t p).isSome)

/-- Sufficient-arity condition at one node: every compiled rule case whose
pattern root names this node only addresses existing descendants, both in
its structural test and in its hole paths. -/
def nodeRulesOK (s : BurgSystem) (t : TTree) : Bool :=
  (labelRules s).all fun r =>
    !(r.tree.name == t.name)
      || (pathsOK t ((ruleTests s r).map Prod.fst) && pathsOK t (ruleKids s r))

mutual
/-- Sufficient-arity condition over a whole tree. -/
def arityOK (s : BurgSystem) : TTree → Bool
  | .node n v cs => nodeRulesOK s (.node n v cs) && arityOKList s cs

/-- Companion of `arityOK` for child lists. -/
def arityOKList (s : BurgSystem) : List TTree → Bool
  | [] => true
  | c :: cs => arityOK s c && arityOKList s cs
end

/-- Acceptance environment where every opaque acceptance routine returns
true (no rule of the examples below carries acceptance text, so it is never
consulted). -/
def accTrue : Nat → LTree → Bool := fun _ _ => true

/-- Construction of the end-to-end example grammar of the spec: terminals
`CONST` and `ADD`, rule 1 `reg -> CONST` at cost 1, rule 2
`reg -> ADD(reg, reg)` at cost 2, goal `reg`. -/
def sysExE : Except BurgError BurgSystem := do
  let s0 := BurgSystem.fresh
  let s1 ← s0.add_terminal "CONST"
  let s2 ← s1.add_terminal "ADD"
  let s3 ← s2.add_rule "reg" (TTree.node "CONST" 0 []) 1 none "emit_load(tree.value)"
  s3.add_rule "reg"
    (TTree.node "ADD" 0 [TTree.node "reg" 0 [], TTree.node "reg" 0 []]) 2 none
    "emit_add(c0, c1)"

/-- The end-to-end example grammar. -/
def sysEx : BurgSystem := sysExE.toOption.getD BurgSystem.fresh

/-- The end-to-end example input tree `ADD(CONST(2), CONST(3))`. -/
def treeEx : TTree :=
  TTree.node "ADD" 0 [TTree.node "CONST" 2 [], TTree.node "CONST" 3 []]

/-- Grammar with only the rule `reg -> ADD(reg, reg)`, used to exercise the
hole probing of a node with too few children. -/
def sysAddE : Except BurgError BurgSystem := do
  let s1 ← BurgSystem.fresh.add_terminal "ADD"
  s1.add_rule "reg"
    (TTree.node "ADD" 0 [TTree.node "reg" 0 [], TTree.node "reg" 0 []]) 2 none
    "emit_add(c0, c1)"

/-- The grammar of `sysAddE`. -/
def sysAdd : BurgSystem := sysAddE.toOption.getD BurgSystem.fresh

/-- Grammar with a two-hop chain: terminal `OP`, rule 1 `a -> OP` at cost 1,
chain rule 2 `b -> a` at cost 5 (registered on `a`), chain rule 3 `c -> b`
at cost 7 (registered on `b`). -/
def sysChainE : Except BurgError BurgSystem := do
  let s1 ← BurgSystem.fresh.add_terminal "OP"
  let s2 ← s1.add_rule "a" (TTree.node "OP" 0 []) 1 none "p()"
  let s3 ← s2.add_rule "b" (TTree.node "a" 0 []) 5 none "q(c0)"
  s3.add_rule "c" (TTree.node "b" 0 []) 7 none "r(c0)"

/-- The grammar of `sysChainE`. -/
def sysChain : BurgSystem := sysChainE.toOption.getD BurgSystem.fresh

/-- Entries for other non-terminals are untouched by `set_cost`. -/
theorem NState.lookup_set_cost_other (st : NState) (n : String) (c rnr : Nat) (z : String)
    (hz : z ≠ n) : NState.lookup (st.set_cost n c rnr) z = NState.lookup st z := by
  induction st with
  | nil =>
    simp only [NState.set_cost, NState.lookup]
    rw [if_neg (fun h => hz h.symm)]
  | cons hd tl ih =>
    obtain ⟨n0, c0, r0⟩ := hd
    simp only [NState.set_cost]
    by_cases h0 : n0 = n
    · rw [if_pos h0]
      by_cases hc : c < c0
      · rw [if_pos hc]
        simp only [NState.lookup]
        rw [if_neg (h0 ▸ fun h => hz h.symm), if_neg (h0 ▸ fun h => hz h.symm)]
      · rw [if_neg hc]
    · rw [if_neg h0]
      simp only [NState.lookup]
      by_cases hn0z : n0 = z
      · rw [if_pos hn0z, if_pos hn0z]
      · rw [if_neg hn0z, if_neg hn0z]
        exact ih

/-- After `set_cost n c rnr` the entry for `n` exists, costs at most `c`, and
costs at most any previously recorded cost (monotonic improvement). -/
theorem NState.lookup_set_cost_self (st : NState) (n : String) (c rnr : Nat) :
    ∃ p : Nat × Nat, NState.lookup (st.set_cost n c rnr) n = some p ∧ p.1 ≤ c ∧
      ∀ q, NState.lookup st n = some q → p.1 ≤ q.1 := by
  induction st with
  | nil =>
    refine ⟨(c, rnr), ?_, le_refl c, ?_⟩
    · simp [NState.set_cost, NState.lookup]
    · intro q hq
      simp [NState.lookup] at hq
  | cons hd tl ih =>
    obtain ⟨n0, c0, r0⟩ := hd
    simp only [NState.set_cost]
    by_cases h0 : n0 = n
    · subst h0
      by_cases hc : c < c0
      · rw [if_pos rfl, if_pos hc]
        refine ⟨(c, rnr), ?_, le_refl c, ?_⟩
        · simp [NState.lookup]
        · intro q hq
          have hq2 : ((c0, r0) : Nat × Nat) = q := by
            apply Option.some.inj
            rw [← hq]
            simp [NState.lookup]
          rw [← hq2]
          exact le_of_lt hc
      · rw [if_pos rfl, if_neg hc]
        refine ⟨(c0, r0), ?_, le_of_not_lt hc, ?_⟩
        · simp [NState.lookup]
        · intro q hq
          have hq2 : ((c0, r0) : Nat × Nat) = q := by
            apply Option.some.inj
            rw [← hq]
            simp [NState.lookup]
          rw [← hq2]
    · rw [if_neg h0]
      obtain ⟨p, hp, hpc, hmin⟩ := ih
      refine ⟨p, ?_, hpc, ?_⟩
      · simp only [NState.lookup, if_neg h0]
        exact hp
      · intro q hq
        simp only [NState.lookup, if_neg h0] at hq
        exact hmin q hq

/-- Once present, an entry survives any further `set_cost`, never increasing
in cost. -/
theorem NState.lookup_set_cost_mono (st : NState) (n : String) (c rnr : Nat) (z : String)
    (p : Nat × Nat) (hp : NState.lookup st z = some p) :
    ∃ p2, NState.lookup (st.set_cost n c rnr) z = some p2 ∧ p2.1 ≤ p.1 := by
  by_cases hz : z = n
  · subst hz
    obtain ⟨p2, hp2, _, hmin⟩ := NState.lookup_set_cost_self st z c rnr
    exact ⟨p2, hp2, hmin p hp⟩
  · rw [NState.lookup_set_cost_other st n c rnr z hz]
    exact ⟨p, hp, le_refl _⟩

/-- An entry survives a whole chain-propagation fold, never increasing. -/
theorem lookup_chainFold_mono (l : List Rule) (c : Nat) (st : NState) (z : String)
    (p : Nat × Nat) (hp : NState.lookup st z = some p) :
    ∃ p2, NState.lookup
        (l.foldl (fun acc cr => acc.set_cost cr.non_term (c + cr.cost) cr.nr) st) z
      = some p2 ∧ p2.1 ≤ p.1 := by
  induction l generalizing st p with
  | nil => exact ⟨p, hp, le_refl _⟩
  | cons a l ih =>
    obtain ⟨p1, hp1, hle1⟩ :=
      NState.lookup_set_cost_mono st a.non_term (c + a.cost) a.nr z p hp
    obtain ⟨p2, hp2, hle2⟩ := ih _ p1 hp1
    exact ⟨p2, hp2, le_trans hle2 hle1⟩

/-- Non-terminals named by no chain rule in the fold are untouched. -/
theorem lookup_chainFold_other (l : List Rule) (c : Nat) (st : NState) (z : String)
    (hz : ∀ cr ∈ l, z ≠ cr.non_term) :
    NState.lookup
        (l.foldl (fun acc cr => acc.set_cost cr.non_term (c + cr.cost) cr.nr) st) z
      = NState.lookup st z := by
  induction l generalizing st with
  | nil => rfl
  | cons a l ih =>
    have ha : z ≠ a.non_term := hz a (List.mem_cons_self a l)
    have htl : ∀ cr ∈ l, z ≠ cr.non_term := fun cr hcr => hz cr (List.mem_cons_of_mem a hcr)
    simp only [List.foldl_cons]
    rw [ih _ htl, NState.lookup_set_cost_other st a.non_term (c + a.cost) a.nr z ha]

/-- Every chain rule in the fold leaves an entry for its left-hand side of
cost at most `c` plus its own chain cost. -/
theorem lookup_chainFold_mem (l : List Rule) (c : Nat) (st : NState) (cr : Rule)
    (h : cr ∈ l) :
    ∃ p2, NState.lookup
        (l.foldl (fun acc cr2 => acc.set_cost cr2.non_term (c + cr2.cost) cr2.nr) st)
        cr.non_term
      = some p2 ∧ p2.1 ≤ c + cr.cost := by
  induction l generalizing st with
  | nil => cases h
  | cons a l ih =>
    rcases List.mem_cons.mp h with rfl | hmem
    · obtain ⟨p1, hp1, hle1, _⟩ :=
        NState.lookup_set_cost_self st cr.non_term (c + cr.cost) cr.nr
      obtain ⟨p2, hp2, hle2⟩ := lookup_chainFold_mono l c _ cr.non_term p1 hp1
      exact ⟨p2, hp2, le_trans hle2 hle1⟩
    · exact ih _ hmem

/-- Shape of one generated rule case when the structural test, hole
resolution, category availability and acceptance all succeed: the node's
State becomes the candidate-cost recording followed by the chain fold. -/
theorem processRule_match (s : BurgSystem) (A : Nat → LTree → Bool) (t : LTree) (r : Rule)
    (kids : List LTree)
    (h1 : evalTests t (ruleTests s r) = some true)
    (h2 : kidsAt t (ruleKids s r) = some kids)
    (h3 : ((kids.zip (ruleNts s r)).all fun kn => (LTree.state kn.1).has_goal kn.2) = true)
    (h4 : acceptOK A r t = true) :
    processRule s A t r =
      some (t.setState
        ((s.chainRules r.non_term).foldl
          (fun acc cr => acc.set_cost cr.non_term (candidateCost s r kids + cr.cost) cr.nr)
          ((LTree.state t).set_cost r.non_term (candidateCost s r kids) r.nr))) := by
  simp only [processRule, h1, h2, h3, h4, Bool.and_self, if_true]

/-- Replacing the State of a labeled node stores exactly that State. -/
theorem LTree.state_setState (t : LTree) (st : NState) :
    LTree.state (t.setState st) = st := by
  cases t
  rfl

/-- A nonempty string has a nonempty character list. -/
theorem data_isEmpty_false_of_ne (x : String) (h : x ≠ "") : x.data.isEmpty = false := by
  cases x with
  | mk d =>
    cases d with
    | nil => exact absurd rfl h
    | cons c cs => rfl

/-- Record facts: `appendChain` keeps the terminal list. -/
theorem appendChain_terminals (s : BurgSystem) (n : String) (r : Rule) :
    (s.appendChain n r).terminals = s.terminals := rfl

theorem installNT_terminals (s : BurgSystem) (n : String) :
    (s.installNT n).terminals = s.terminals := rfl

theorem non_term_ok (s : BurgSystem) (n : String) (h : s.terminals.contains n = false) :
    s.non_term n = .ok (s.installNT n) := by
  unfold BurgSystem.non_term
  rw [h]

theorem non_term_error (s : BurgSystem) (n : String) (h : s.terminals.contains n = true) :
    s.non_term n = .error .cannotRedefine := by
  unfold BurgSystem.non_term
  rw [h]

theorem add_rule_ok_eq (s : BurgSystem) (lhs : String) (tr : TTree) (cost : Nat)
    (acc : Option String) (tmpl : String) (hlhs : s.terminals.contains lhs = false) :
    s.add_rule lhs tr cost acc tmpl = .ok (addRuleModel s lhs tr cost acc tmpl) := by
  unfold BurgSystem.add_rule addRuleModel
  cases hch : (tr.children.isEmpty && !(s.terminals.contains tr.name)) with
  | true =>
    have hb : s.terminals.contains tr.name = false := by
      cases hx : s.terminals.contains tr.name
      · rfl
      · rw [hx] at hch
        simp at hch
    rw [non_term_ok s tr.name hb]
    dsimp only
    have hlhs2 : ((s.installNT tr.name).appendChain tr.name
        (ruleOf s lhs tr cost acc tmpl)).terminals.contains lhs = false := by
      rw [appendChain_terminals, installNT_terminals]
      exact hlhs
    rw [non_term_ok _ lhs hlhs2]
  | false =>
    dsimp only
    rw [non_term_ok s lhs hlhs]

theorem add_rule_error_eq (s : BurgSystem) (lhs : String) (tr : TTree) (cost : Nat)
    (acc : Option String) (tmpl : String) (hlhs : s.terminals.contains lhs = true) :
    s.add_rule lhs tr cost acc tmpl = .error .cannotRedefine := by
  unfold BurgSystem.add_rule
  cases hch : (tr.children.isEmpty && !(s.terminals.contains tr.name)) with
  | true =>
    have hb : s.terminals.contains tr.name = false := by
      cases hx : s.terminals.contains tr.name
      · rfl
      · rw [hx] at hch
        simp at hch
    rw [non_term_ok s tr.name hb]
    dsimp only
    have hlhs2 : ((s.installNT tr.name).appendChain tr.name
        (ruleOf s lhs tr cost acc tmpl)).terminals.contains lhs = true := by
      rw [appendChain_terminals, installNT_terminals]
      exact hlhs
    rw [non_term_error _ lhs hlhs2]
  | false =>
    dsimp only
    rw [non_term_error s lhs hlhs]

/-- Claim C1: whenever a rule's structural test, hole resolution, category
availability and acceptance all admit a node, the candidate cost recorded by
the generated labeling code equals the rule's intrinsic cost plus the sum
over the rule's holes of the addressed kid's best cost for the required
category; and for the example grammar (rule 1 `reg -> CONST` at cost 1,
rule 2 `reg -> ADD(reg, reg)` at cost 2, goal `reg`) the input
`ADD(CONST(2), CONST(3))` labels both leaves `reg` at cost 1 and the root
`reg` at cost 4, and selection applies the `emit_load` rule to each leaf and
then the `emit_add` rule combining them. -/
theorem C1_candidate_cost_and_example :
    (∀ (s : BurgSystem) (A : Nat → LTree → Bool) (t : LTree) (r : Rule) (kids : List LTree),
      evalTests t (ruleTests s r) = some true →
      kidsAt t (ruleKids s r) = some kids →
      ((kids.zip (ruleNts s r)).all fun kn => (LTree.state kn.1).has_goal kn.2) = true →
      acceptOK A r t = true →
      candidateCost s r kids =
          r.cost + (((kids.zip (ruleNts s r)).map fun kn =>
            (LTree.state kn.1).get_cost kn.2).sum) ∧
        processRule s A t r =
          some (t.setState
            ((s.chainRules r.non_term).foldl
              (fun acc cr =>
                acc.set_cost cr.non_term (candidateCost s r kids + cr.cost) cr.nr)
              ((LTree.state t).set_cost r.non_term (candidateCost s r kids) r.nr)))) ∧
    burm_label sysEx accTrue treeEx =
      some (LTree.node "ADD" 0
        [LTree.node "CONST" 2 [] [("reg", 1, 1)], LTree.node "CONST" 3 [] [("reg", 1, 1)]]
        [("reg", 4, 2)]) ∧
    gen sysEx accTrue 10 treeEx =
      .ok (some (MatchResult.res 2 "ADD" 0
        [MatchResult.res 1 "CONST" 2 [], MatchResult.res 1 "CONST" 3 []])) ∧
    traceOf (MatchResult.res 2 "ADD" 0
      [MatchResult.res 1 "CONST" 2 [], MatchResult.res 1 "CONST" 3 []]) = [1, 1, 2] ∧
    (findRule sysEx 1).map Rule.template = some "emit_load(tree.value)" ∧
    (findRule sysEx 2).map Rule.template = some "emit_add(c0, c1)" := by
  refine ⟨?_, rfl, rfl, rfl, rfl, rfl⟩
  intro s A t r kids h1 h2 h3 h4
  exact ⟨Nat.add_comm _ _, processRule_match s A t r kids h1 h2 h3 h4⟩

/-- Witness for C1: the general part applied to rule 2 of the example
grammar at the root of the example tree with both leaves already labeled. -/
theorem C1_witness :
    processRule sysEx accTrue
      (LTree.node "ADD" 0
        [LTree.node "CONST" 2 [] [("reg", 1, 1)], LTree.node "CONST" 3 [] [("reg", 1, 1)]] [])
      ⟨"reg", TTree.node "ADD" 0 [TTree.node "reg" 0 [], TTree.node "reg" 0 []], 2, none,
        "emit_add(c0, c1)", 2⟩ =
      some ((LTree.node "ADD" 0
        [LTree.node "CONST" 2 [] [("reg", 1, 1)], LTree.node "CONST" 3 [] [("reg", 1, 1)]]
        []).setState [("reg", 4, 2)]) :=
  (C1_candidate_cost_and_example.1 sysEx accTrue
    (LTree.node "ADD" 0
      [LTree.node "CONST" 2 [] [("reg", 1, 1)], LTree.node "CONST" 3 [] [("reg", 1, 1)]] [])
    ⟨"reg", TTree.node "ADD" 0 [TTree.node "reg" 0 [], TTree.node "reg" 0 []], 2, none,
      "emit_add(c0, c1)", 2⟩
    [LTree.node "CONST" 2 [] [("reg", 1, 1)], LTree.node "CONST" 3 [] [("reg", 1, 1)]]
    rfl rfl rfl rfl).2

/-- Claim C4: a direct rule match recording candidate cost `c` also offers
`c + k` for every chain rule of chain cost `k` registered on the rule's
non-terminal, exactly once and without iteration, so a category reachable
only through two or more consecutive chain hops receives no entry from that
match; on the two-hop grammar (`a -> OP` at 1, chain `b -> a` at 5, chain
`c -> b` at 7) labeling `OP()` yields `a` at 1 and `b` at 6 but no entry for
`c`. -/
theorem C4_chain_one_hop :
    (∀ (s : BurgSystem) (A : Nat → LTree → Bool) (t : LTree) (r : Rule) (kids : List LTree)
        (t2 : LTree),
      evalTests t (ruleTests s r) = some true →
      kidsAt t (ruleKids s r) = some kids →
      ((kids.zip (ruleNts s r)).all fun kn => (LTree.state kn.1).has_goal kn.2) = true →
      acceptOK A r t = true →
      processRule s A t r = some t2 →
      (∀ cr ∈ s.chainRules r.non_term,
        ∃ p : Nat × Nat, NState.lookup (LTree.state t2) cr.non_term = some p ∧
          p.1 ≤ candidateCost s r kids + cr.cost) ∧
      (∀ z : String, z ≠ r.non_term →
        (∀ cr ∈ s.chainRules r.non_term, z ≠ cr.non_term) →
        NState.lookup (LTree.state t2) z = NState.lookup (LTree.state t) z)) ∧
    burm_label sysChain accTrue (TTree.node "OP" 0 []) =
      some (LTree.node "OP" 0 [] [("a", 1, 1), ("b", 6, 2)]) ∧
    NState.lookup [("a", 1, 1), ("b", 6, 2)] "c" = none := by
  refine ⟨?_, rfl, rfl⟩
  intro s A t r kids t2 h1 h2 h3 h4 h5
  rw [processRule_match s A t r kids h1 h2 h3 h4] at h5
  obtain rfl := Option.some.inj h5
  constructor
  · intro cr hcr
    rw [LTree.state_setState]
    exact lookup_chainFold_mem _ _ _ cr hcr
  · intro z hz hcrs
    rw [LTree.state_setState, lookup_chainFold_other _ _ _ _ hcrs]
    exact NState.lookup_set_cost_other _ _ _ _ _ hz

/-- Witness for C4: the general part applied to rule 1 of the two-hop chain
grammar at a childless `OP` node, with the single chain rule on `a`. -/
theorem C4_witness :
    NState.lookup [("a", 1, 1), ("b", 6, 2)] "b" = some (6, 2) ∧
    (6 : Nat) ≤ candidateCost sysChain
      ⟨"a", TTree.node "OP" 0 [], 1, none, "p()", 1⟩ [] + 5 := by
  have hmem : (⟨"b", TTree.node "a" 0 [], 5, none, "q(c0)", 2⟩ : Rule) ∈
      sysChain.chainRules "a" := by
    show _ ∈ [(⟨"b", TTree.node "a" 0 [], 5, none, "q(c0)", 2⟩ : Rule)]
    exact List.mem_singleton.mpr rfl
  obtain ⟨p, hp, hle⟩ :=
    ((C4_chain_one_hop).1 sysChain accTrue (LTree.node "OP" 0 [] [])
      ⟨"a", TTree.node "OP" 0 [], 1, none, "p()", 1⟩ []
      (LTree.node "OP" 0 [] [("a", 1, 1), ("b", 6, 2)])
      rfl rfl rfl rfl rfl).1
      ⟨"b", TTree.node "a" 0 [], 5, none, "q(c0)", 2⟩ hmem
  have hp2 : some ((6 : Nat), (2 : Nat)) = some p := by
    rw [← hp]
    rfl
  obtain rfl : ((6, 2) : Nat × Nat) = p := Option.some.inj hp2
  exact ⟨hp, hle⟩

/-- A list extended with one element has that element as its last. -/
theorem rules_getLast_append (l : List Rule) (r : Rule) : (l ++ [r]).getLast? = some r := by
  rw [List.getLast?_append_of_ne_nil l (by simp)]
  rfl

/-- Claim C2 (code bug): on the pattern `ADD(reg, SUB(reg, reg))` the
generated structural test produced by `emittest` addresses the `SUB` child
at concrete position 0, because the source enumerates the filtered child
sequence, while the claim (and `compute_kids`) address the child at its own
pattern position 1. -/
theorem C2_emittest_filtered_index :
    emittest ["reg"]
      (TTree.node "ADD" 0 [TTree.node "reg" 0 [],
        TTree.node "SUB" 0 [TTree.node "reg" 0 [], TTree.node "reg" 0 []]]) []
      = [([], "ADD"), ([0], "SUB")] ∧
    emittest_claim ["reg"]
      (TTree.node "ADD" 0 [TTree.node "reg" 0 [],
        TTree.node "SUB" 0 [TTree.node "reg" 0 [], TTree.node "reg" 0 []]]) []
      = [([], "ADD"), ([1], "SUB")] ∧
    ([(([] : List Nat), "ADD"), ([0], "SUB")] : List (List Nat × String))
      ≠ [([], "ADD"), ([1], "SUB")] :=
  ⟨rfl, rfl, by decide⟩

/-- Claim C3 counterexample: the first `add_rule` on a fresh system with the
chain rule `X -> Y` sets the goal to `Y`, the pattern's referenced
non-terminal, not to the left-hand side `X`, because `add_rule` installs the
pattern's non-terminal before the left-hand side. -/
theorem C3_first_goal_cex :
    (BurgSystem.fresh.add_rule "X" (TTree.node "Y" 0 []) 1 none "a").map BurgSystem.goal
      = .ok (some "Y") ∧ ("Y" : String) ≠ "X" :=
  ⟨rfl, by decide⟩

/-- Claim C3 amended: the goal becomes the first non-terminal name passed to
`non_term`: for a first rule that is a chain rule this is the pattern's
referenced non-terminal, otherwise the left-hand side; and once the goal is
a nonempty name, no later successful `add_rule` changes it. -/
theorem C3_goal_amended :
    (∀ (s : BurgSystem) (lhs : String) (tr : TTree) (cost : Nat)
        (acc : Option String) (tmpl : String),
      s.goal = none →
      tr.name ≠ "" →
      s.terminals.contains lhs = false →
      (s.add_rule lhs tr cost acc tmpl).map BurgSystem.goal =
        .ok (some (if tr.children.isEmpty && !(s.terminals.contains tr.name)
                   then tr.name else lhs))) ∧
    (∀ (s : BurgSystem) (g lhs : String) (tr : TTree) (cost : Nat)
        (acc : Option String) (tmpl : String),
      s.goal = some g →
      g ≠ "" →
      s.terminals.contains lhs = false →
      (s.add_rule lhs tr cost acc tmpl).map BurgSystem.goal = .ok (some g)) := by
  constructor
  · intro s lhs tr cost acc tmpl hg hname hlhs
    rw [add_rule_ok_eq s lhs tr cost acc tmpl hlhs]
    show Except.ok ((addRuleModel s lhs tr cost acc tmpl).goal) = _
    unfold addRuleModel
    cases hch : (tr.children.isEmpty && !(s.terminals.contains tr.name)) with
    | true =>
      dsimp only [BurgSystem.appendChain, BurgSystem.installNT]
      rw [hg]
      simp [data_isEmpty_false_of_ne tr.name hname]
    | false =>
      dsimp only [BurgSystem.installNT]
      rw [hg]
      simp
  · intro s g lhs tr cost acc tmpl hg hgne hlhs
    rw [add_rule_ok_eq s lhs tr cost acc tmpl hlhs]
    show Except.ok ((addRuleModel s lhs tr cost acc tmpl).goal) = _
    unfold addRuleModel
    cases hch : (tr.children.isEmpty && !(s.terminals.contains tr.name)) with
    | true =>
      dsimp only [BurgSystem.appendChain, BurgSystem.installNT]
      rw [hg]
      simp [data_isEmpty_false_of_ne g hgne]
    | false =>
      dsimp only [BurgSystem.installNT]
      rw [hg]
      simp [data_isEmpty_false_of_ne g hgne]

/-- Claim C7: an `add_rule` call raises the grammar-construction error
exactly when its left-hand side was previously declared a terminal, and in
that case the error is the redefinition error. -/
theorem C7_terminal_lhs_error :
    ∀ (s : BurgSystem) (lhs : String) (tr : TTree) (cost : Nat)
      (acc : Option String) (tmpl : String),
      ((∃ e, s.add_rule lhs tr cost acc tmpl = .error e) ↔
        s.terminals.contains lhs = true) ∧
      (s.terminals.contains lhs = true →
        s.add_rule lhs tr cost acc tmpl = .error .cannotRedefine) := by
  intro s lhs tr cost acc tmpl
  constructor
  · constructor
    · rintro ⟨e, he⟩
      cases hx : s.terminals.contains lhs
      · rw [add_rule_ok_eq s lhs tr cost acc tmpl hx] at he
        cases he
      · rfl
    · intro h
      exact ⟨.cannotRedefine, add_rule_error_eq s lhs tr cost acc tmpl h⟩
  · intro h
    exact add_rule_error_eq s lhs tr cost acc tmpl h

/-- Witness for C7: on a system whose only terminal is `T`, adding a rule
with left-hand side `T` raises the redefinition error. -/
theorem C7_witness :
    (BurgSystem.mk [] ["T"] [] none).add_rule "T" (TTree.node "OP" 0 []) 1 none "x"
      = .error .cannotRedefine :=
  (C7_terminal_lhs_error (BurgSystem.mk [] ["T"] [] none) "T"
    (TTree.node "OP" 0 []) 1 none "x").2 rfl

/-- Claim C10: the stored action template is the supplied text stripped of
surrounding whitespace, `pass` when empty or whitespace-only; emission
splits the template on semicolons with each piece stripped onto its own
indented line, so action text is not reproduced byte-for-byte. -/
theorem C10_template :
    (∀ (s : BurgSystem) (lhs : String) (tr : TTree) (cost : Nat)
        (acc : Option String) (tmpl : String),
      s.terminals.contains lhs = false →
      (s.add_rule lhs tr cost acc tmpl).map
          (fun s2 => (s2.rules.getLast?).map Rule.template)
        = .ok (some (if (pyStrip tmpl).data.isEmpty then "pass" else pyStrip tmpl))) ∧
    templateLines "emit_a(x) ; emit_b(y)" = ["        emit_a(x)", "        emit_b(y)"] ∧
    templateLines "emit_a(x) ; emit_b(y)" ≠ ["        emit_a(x) ; emit_b(y)"] ∧
    pyStrip "  do_it()  " = "do_it()" ∧ ("  do_it()  " : String) ≠ "do_it()" ∧
    (if (pyStrip "   ").data.isEmpty then "pass" else pyStrip "   ") = "pass" := by
  refine ⟨?_, rfl, by decide, rfl, by decide, rfl⟩
  intro s lhs tr cost acc tmpl hlhs
  rw [add_rule_ok_eq s lhs tr cost acc tmpl hlhs]
  show Except.ok (((addRuleModel s lhs tr cost acc tmpl).rules.getLast?).map Rule.template) = _
  unfold addRuleModel
  dsimp only
  rw [rules_getLast_append]
  rfl

/-- Witness for C10: adding a rule with action text `  a ; b  ` stores the
stripped template `a ; b`. -/
theorem C10_witness :
    (BurgSystem.fresh.add_rule "x" (TTree.node "T" 0 [TTree.node "u" 0 []]) 1 none
        "  a ; b  ").map (fun s2 => (s2.rules.getLast?).map Rule.template)
      = .ok (some "a ; b") :=
  C10_template.1 BurgSystem.fresh "x" (TTree.node "T" 0 [TTree.node "u" 0 []]) 1 none
    "  a ; b  " rfl

/-- Witness for C3 (amended): the first `add_rule` on a fresh system with an
ordinary pattern `MOV(reg)` sets the goal to the left-hand side `stmt`. -/
theorem C3_witness :
    (BurgSystem.fresh.add_rule "stmt"
        (TTree.node "MOV" 0 [TTree.node "reg" 0 []]) 1 none "m()").map BurgSystem.goal
      = .ok (some "stmt") :=
  C3_goal_amended.1 BurgSystem.fresh "stmt" (TTree.node "MOV" 0 [TTree.node "reg" 0 []])
    1 none "m()" rfl (by decide) rfl

mutual
theorem compute_kids_len (nts : List String) : ∀ (t : TTree) (pfx : List Nat),
    (compute_kids nts t pfx).1.length = (compute_kids nts t pfx).2.length
  | .node n _ cs, pfx => by
    unfold compute_kids
    cases h : nts.contains n with
    | true => rfl
    | false => exact compute_kids_children_len nts cs pfx 0

theorem compute_kids_children_len (nts : List String) :
    ∀ (cs : List TTree) (pfx : List Nat) (i : Nat),
    (compute_kids_children nts cs pfx i).1.length
      = (compute_kids_children nts cs pfx i).2.length
  | [], _, _ => rfl
  | c :: cs, pfx, i => by
    unfold compute_kids_children
    simp only [List.length_append]
    rw [compute_kids_len nts c (pfx ++ [i]), compute_kids_children_len nts cs pfx (i + 1)]
end

/-- Claim C9: hole extraction returns parallel sequences of equal length,
a non-terminal reference contributes its current path and name as one hole,
and a terminal-rooted pattern concatenates its children's holes computed at
their indexed positions, depth-first and left-to-right. -/
theorem C9_compute_kids :
    (∀ (nts : List String) (t : TTree) (pfx : List Nat),
      (compute_kids nts t pfx).1.length = (compute_kids nts t pfx).2.length) ∧
    (∀ (nts : List String) (t : TTree) (pfx : List Nat),
      nts.contains (TTree.name t) = true →
      compute_kids nts t pfx = ([pfx], [TTree.name t])) ∧
    (∀ (nts : List String) (n : String) (v : Int) (cs : List TTree) (pfx : List Nat),
      nts.contains n = false →
      compute_kids nts (TTree.node n v cs) pfx = compute_kids_children nts cs pfx 0) ∧
    (∀ (nts : List String) (pfx : List Nat) (i : Nat),
      compute_kids_children nts [] pfx i = ([], [])) ∧
    (∀ (nts : List String) (c : TTree) (cs : List TTree) (pfx : List Nat) (i : Nat),
      compute_kids_children nts (c :: cs) pfx i =
        ((compute_kids nts c (pfx ++ [i])).1
           ++ (compute_kids_children nts cs pfx (i + 1)).1,
         (compute_kids nts c (pfx ++ [i])).2
           ++ (compute_kids_children nts cs pfx (i + 1)).2)) := by
  refine ⟨compute_kids_len, ?_, ?_, fun nts pfx i => rfl, fun nts c cs pfx i => rfl⟩
  · intro nts t pfx h
    cases t with
    | node n v cs =>
      unfold compute_kids
      rw [show nts.contains n = true from h]
      rfl
  · intro nts n v cs pfx h
    unfold compute_kids
    rw [h]
    rfl

/-- Witness for C9: a bare non-terminal pattern at path `[0]` yields that
path and its name as the single hole. -/
theorem C9_witness :
    compute_kids ["reg"] (TTree.node "reg" 0 []) [0] = ([[0]], ["reg"]) :=
  C9_compute_kids.2.1 ["reg"] (TTree.node "reg" 0 []) [0] rfl

/-- Claim C8: the generated driver labels the whole tree and then fails with
a message naming the offending tree exactly when the root's State lacks the
goal category, returning the top-down selection result otherwise; a grammar
with no rule for the root terminal produces such a failure. -/
theorem C8_driver :
    (∀ (s : BurgSystem) (A : Nat → LTree → Bool) (fuel : Nat) (t : TTree) (lt : LTree),
      burm_label s A t = some lt →
      ((gen s A fuel t = .error (notCoveredMsg t)) ↔
        (LTree.state lt).has_goal (s.goal.getD "") = false) ∧
      ((LTree.state lt).has_goal (s.goal.getD "") = true →
        gen s A fuel t = .ok (apply_rules s A fuel lt (s.goal.getD "")))) ∧
    gen sysAdd accTrue 10 (TTree.node "NOP" 0 []) =
      .error (notCoveredMsg (TTree.node "NOP" 0 [])) := by
  constructor
  · intro s A fuel t lt hl
    unfold gen
    rw [hl]
    dsimp only
    cases hg : (LTree.state lt).has_goal (s.goal.getD "") with
    | true =>
      refine ⟨⟨fun he => ?_, fun hfalse => ?_⟩, fun _ => rfl⟩
      · simp at he
      · simp at hfalse
    | false =>
      refine ⟨⟨fun _ => rfl, fun _ => rfl⟩, fun htrue => ?_⟩
      simp at htrue
  · rfl

/-- Witness for C8: on the example grammar and tree the driver returns the
selection result for goal `reg` at the labeled root. -/
theorem C8_witness :
    gen sysEx accTrue 10 treeEx =
      .ok (apply_rules sysEx accTrue 10
        (LTree.node "ADD" 0
          [LTree.node "CONST" 2 [] [("reg", 1, 1)], LTree.node "CONST" 3 [] [("reg", 1, 1)]]
          [("reg", 4, 2)]) "reg") :=
  (C8_driver.1 sysEx accTrue 10 treeEx
    (LTree.node "ADD" 0
      [LTree.node "CONST" 2 [] [("reg", 1, 1)], LTree.node "CONST" 3 [] [("reg", 1, 1)]]
      [("reg", 4, 2)]) rfl).2 rfl

theorem find?_append_left {α : Type} (l l2 : List α) (pred : α → Bool) (p : α)
    (h : l.find? pred = some p) : (l ++ l2).find? pred = some p := by
  induction l with
  | nil => simp [List.find?] at h
  | cons a l ih =>
    cases hpa : pred a with
    | true =>
      rw [List.find?_cons_of_pos _ hpa] at h
      rw [List.cons_append, List.find?_cons_of_pos _ hpa]
      exact h
    | false =>
      rw [List.find?_cons_of_neg _ (by simp [hpa])] at h
      rw [List.cons_append, List.find?_cons_of_neg _ (by simp [hpa])]
      exact ih h

theorem find?_append_none {α : Type} (l l2 : List α) (pred : α → Bool)
    (h : l.find? pred = none) : (l ++ l2).find? pred = l2.find? pred := by
  induction l with
  | nil => rfl
  | cons a l ih =>
    cases hpa : pred a with
    | true => rw [List.find?_cons_of_pos _ hpa] at h; cases h
    | false =>
      rw [List.find?_cons_of_neg _ (by simp [hpa])] at h
      rw [List.cons_append, List.find?_cons_of_neg _ (by simp [hpa])]
      exact ih h

theorem contains_map_fst_find {l : List (String × List Rule)} {n : String}
    (h : (l.map Prod.fst).contains n = true) :
    ∃ p, l.find? (fun q => q.1 == n) = some p := by
  induction l with
  | nil => simp at h
  | cons a l ih =>
    by_cases heq : a.1 = n
    · exact ⟨a, by rw [List.find?_cons_of_pos _ (by simp [heq])]⟩
    · have hmem : n ∈ (a :: l).map Prod.fst := by simpa using h
      rw [List.map_cons] at hmem
      rcases List.mem_cons.mp hmem with heq2 | hmem2
      · exact absurd heq2.symm heq
      · have h2 : (l.map Prod.fst).contains n = true := by simpa using hmem2
        obtain ⟨p, hp⟩ := ih h2
        exact ⟨p, by rw [List.find?_cons_of_neg _ (by simp [heq])]; exact hp⟩

theorem chainRules_appendChain_self (s : BurgSystem) (n : String) (r : Rule) :
    (s.appendChain n r).chainRules n =
      (match s.nonterms.find? (fun p => p.1 == n) with
       | some p => p.2 ++ [r]
       | none => []) := by
  unfold BurgSystem.chainRules BurgSystem.appendChain
  dsimp only
  induction s.nonterms with
  | nil => rfl
  | cons a l ih =>
    cases hpa : (a.1 == n) with
    | true => simp [List.find?, hpa]
    | false => simp [List.find?, hpa] at ih ⊢; exact ih

theorem installNT_find_some (s : BurgSystem) (n : String) :
    ∃ p, (s.installNT n).nonterms.find? (fun q => q.1 == n) = some p := by
  unfold BurgSystem.installNT
  dsimp only
  cases hc : s.non_terminals.contains n with
  | true => exact contains_map_fst_find hc
  | false =>
    show ∃ p, (s.nonterms ++ [(n, [])]).find? (fun q => q.1 == n) = some p
    cases hf : s.nonterms.find? (fun q => q.1 == n) with
    | some p => exact ⟨p, find?_append_left _ _ _ p hf⟩
    | none =>
      refine ⟨(n, []), ?_⟩
      rw [find?_append_none _ _ _ hf]
      rw [List.find?_cons_of_pos _ (by simp)]

theorem mem_chainRules_install_append (s : BurgSystem) (n : String) (r : Rule) :
    r ∈ ((s.installNT n).appendChain n r).chainRules n := by
  rw [chainRules_appendChain_self]
  obtain ⟨p, hp⟩ := installNT_find_some s n
  rw [hp]
  simp

theorem mem_chainRules_installNT (x : BurgSystem) (m tn : String) (r : Rule)
    (h : r ∈ x.chainRules tn) : r ∈ (x.installNT m).chainRules tn := by
  unfold BurgSystem.chainRules at h ⊢
  cases hf : x.nonterms.find? (fun q => q.1 == tn) with
  | none => rw [hf] at h; cases h
  | some p =>
    rw [hf] at h
    unfold BurgSystem.installNT
    dsimp only
    cases hc : x.non_terminals.contains m with
    | true =>
      show r ∈ (match x.nonterms.find? (fun q : String × List Rule => q.1 == tn) with
                | some q2 => q2.2
                | none => ([] : List Rule))
      rw [hf]
      exact h
    | false =>
      show r ∈ (match (x.nonterms ++ [(m, [])]).find?
                  (fun q : String × List Rule => q.1 == tn) with
                | some q2 => q2.2
                | none => ([] : List Rule))
      rw [find?_append_left _ _ _ p hf]
      exact h

theorem addRuleModel_terminals (s : BurgSystem) (lhs : String) (tr : TTree) (cost : Nat)
    (acc : Option String) (tmpl : String) :
    (addRuleModel s lhs tr cost acc tmpl).terminals = s.terminals := by
  unfold addRuleModel
  cases (tr.children.isEmpty && !(s.terminals.contains tr.name)) <;> rfl

/-- Claim C6: a rule whose pattern is a bare non-terminal reference is
appended to that non-terminal's chain-rule list and never appears among the
rules compiled into the per-terminal labeling cases. -/
theorem C6_chain_registration :
    ∀ (s : BurgSystem) (lhs : String) (tr : TTree) (cost : Nat)
      (acc : Option String) (tmpl : String),
      tr.children.isEmpty = true →
      s.terminals.contains tr.name = false →
      s.terminals.contains lhs = false →
      s.add_rule lhs tr cost acc tmpl = .ok (addRuleModel s lhs tr cost acc tmpl) ∧
      (addRuleModel s lhs tr cost acc tmpl).rules.getLast?
        = some (ruleOf s lhs tr cost acc tmpl) ∧
      ruleOf s lhs tr cost acc tmpl
        ∈ (addRuleModel s lhs tr cost acc tmpl).chainRules tr.name ∧
      ruleOf s lhs tr cost acc tmpl ∉ labelRules (addRuleModel s lhs tr cost acc tmpl) := by
  intro s lhs tr cost acc tmpl hkids hterm hlhs
  have hch : (tr.children.isEmpty && !(s.terminals.contains tr.name)) = true := by
    rw [hkids, hterm]
    rfl
  refine ⟨add_rule_ok_eq s lhs tr cost acc tmpl hlhs, ?_, ?_, ?_⟩
  · show ((addRuleModel s lhs tr cost acc tmpl).rules).getLast? = _
    unfold addRuleModel
    rw [hch]
    exact rules_getLast_append _ _
  · show ruleOf s lhs tr cost acc tmpl ∈ (addRuleModel s lhs tr cost acc tmpl).chainRules tr.name
    unfold addRuleModel
    rw [hch]
    dsimp only
    exact mem_chainRules_installNT _ lhs tr.name _
      (mem_chainRules_install_append s tr.name (ruleOf s lhs tr cost acc tmpl))
  · intro hmem
    unfold labelRules at hmem
    rw [addRuleModel_terminals] at hmem
    simp only [List.mem_flatten, List.mem_map] at hmem
    obtain ⟨l, ⟨term, hterm_mem, rfl⟩, hrl⟩ := hmem
    have hbeq := (List.mem_filter.mp hrl).2
    have htn : tr.name = term := by
      have : (ruleOf s lhs tr cost acc tmpl).tree = tr := rfl
      rw [this] at hbeq
      simpa using hbeq
    rw [← htn] at hterm_mem
    have hnot : tr.name ∉ s.terminals := by simpa using hterm
    exact hnot hterm_mem

/-- Witness for C6: the chain rule `X -> Y` on a fresh system lands in `Y`'s
chain list and not in the per-terminal label rules. -/
theorem C6_witness :
    BurgSystem.fresh.add_rule "X" (TTree.node "Y" 0 []) 1 none "a"
      = .ok (addRuleModel BurgSystem.fresh "X" (TTree.node "Y" 0 []) 1 none "a") ∧
    (addRuleModel BurgSystem.fresh "X" (TTree.node "Y" 0 []) 1 none "a").rules.getLast?
      = some (ruleOf BurgSystem.fresh "X" (TTree.node "Y" 0 []) 1 none "a") ∧
    ruleOf BurgSystem.fresh "X" (TTree.node "Y" 0 []) 1 none "a"
      ∈ (addRuleModel BurgSystem.fresh "X" (TTree.node "Y" 0 []) 1 none "a").chainRules
          (TTree.node "Y" 0 []).name ∧
    ruleOf BurgSystem.fresh "X" (TTree.node "Y" 0 []) 1 none "a"
      ∉ labelRules (addRuleModel BurgSystem.fresh "X" (TTree.node "Y" 0 []) 1 none "a") :=
  C6_chain_registration BurgSystem.fresh "X" (TTree.node "Y" 0 []) 1 none "a" rfl rfl rfl

theorem processRule_shape (s : BurgSystem) (A : Nat → LTree → Bool) (t : LTree) (r : Rule)
    (t2 : LTree) (h : processRule s A t r = some t2) :
    LTree.name t2 = LTree.name t ∧ LTree.value t2 = LTree.value t ∧
    LTree.children t2 = LTree.children t := by
  unfold processRule at h
  cases he : evalTests t (ruleTests s r) with
  | none => rw [he] at h; cases h
  | some b =>
    rw [he] at h
    cases b with
    | false =>
      obtain rfl := Option.some.inj h
      exact ⟨rfl, rfl, rfl⟩
    | true =>
      cases hk : kidsAt t (ruleKids s r) with
      | none => rw [hk] at h; cases h
      | some kids =>
        rw [hk] at h
        dsimp only at h
        split at h
        · obtain rfl := Option.some.inj h
          cases t with
          | node n v cs st => exact ⟨rfl, rfl, rfl⟩
        · obtain rfl := Option.some.inj h
          exact ⟨rfl, rfl, rfl⟩

theorem subtreeAtL_isSome_of_children (t2 t : LTree)
    (h : LTree.children t2 = LTree.children t) :
    ∀ p : List Nat, (subtreeAtL t2 p).isSome = (subtreeAtL t p).isSome
  | [] => rfl
  | i :: rest => by
    unfold subtreeAtL
    rw [h]

theorem eraseLList_getElem? : ∀ (cs : List LTree) (i : Nat),
    (eraseLList cs)[i]? = (cs[i]?).map eraseL
  | [], i => by simp [eraseLList]
  | c :: cs, 0 => by simp [eraseLList]
  | c :: cs, i + 1 => by
    simp only [eraseLList, List.getElem?_cons_succ]
    exact eraseLList_getElem? cs i

theorem subtreeAtT_eraseL_isSome : ∀ (p : List Nat) (lt : LTree),
    (subtreeAtT (eraseL lt) p).isSome = (subtreeAtL lt p).isSome
  | [], lt => rfl
  | i :: rest, lt => by
    cases lt with
    | node n v cs st =>
      show (match (TTree.children (TTree.node n v (eraseLList cs)))[i]? with
            | none => none
            | some c => subtreeAtT c rest).isSome =
        (match (cs : List LTree)[i]? with
            | none => none
            | some c => subtreeAtL c rest).isSome
      rw [show TTree.children (TTree.node n v (eraseLList cs)) = eraseLList cs from rfl]
      rw [eraseLList_getElem? cs i]
      cases hx : (cs : List LTree)[i]? with
      | none => rfl
      | some c =>
        dsimp only [Option.map]
        exact subtreeAtT_eraseL_isSome rest c

theorem evalTests_isSome (t : LTree) : ∀ tests : List (List Nat × String),
    (∀ pr ∈ tests, (subtreeAtL t pr.1).isSome = true) →
    (evalTests t tests).isSome = true
  | [], _ => rfl
  | (p, n) :: rest, h => by
    unfold evalTests
    have hp := h (p, n) (List.mem_cons_self _ _)
    cases hs : subtreeAtL t p with
    | none => rw [hs] at hp; cases hp
    | some sub =>
      dsimp only
      cases hb : (LTree.name sub == n) with
      | true =>
        exact evalTests_isSome t rest (fun pr hpr => h pr (List.mem_cons_of_mem _ hpr))
      | false => rfl

theorem kidsAt_isSome (t : LTree) : ∀ ps : List (List Nat),
    (∀ p ∈ ps, (subtreeAtL t p).isSome = true) → (kidsAt t ps).isSome = true
  | [], _ => rfl
  | p :: ps, h => by
    unfold kidsAt
    have hp := h p (List.mem_cons_self _ _)
    cases hs : subtreeAtL t p with
    | none => rw [hs] at hp; cases hp
    | some k =>
      dsimp only
      have htl := kidsAt_isSome t ps (fun q hq => h q (List.mem_cons_of_mem _ hq))
      cases hk : kidsAt t ps with
      | none => rw [hk] at htl; cases htl
      | some ks => rfl

theorem ruleTests_head (s : BurgSystem) (r : Rule) :
    ∃ tail, ruleTests s r = ([], r.tree.name) :: tail := by
  cases htr : r.tree with
  | node rn rv rcs =>
    refine ⟨emittest_children s.non_terminals rcs [] 0, ?_⟩
    unfold ruleTests
    rw [htr]
    rfl

theorem processRule_isSome (s : BurgSystem) (A : Nat → LTree → Bool) (t : LTree) (r : Rule)
    (H : r.tree.name = LTree.name t →
      (∀ p ∈ (ruleTests s r).map Prod.fst, (subtreeAtL t p).isSome = true) ∧
      (∀ p ∈ ruleKids s r, (subtreeAtL t p).isSome = true)) :
    (processRule s A t r).isSome = true := by
  obtain ⟨tail, htt⟩ := ruleTests_head s r
  unfold processRule
  cases he : evalTests t (ruleTests s r) with
  | none =>
    exfalso
    by_cases hn : r.tree.name = LTree.name t
    · have hall := (H hn).1
      have hsome := evalTests_isSome t (ruleTests s r)
        (fun pr hpr => hall pr.1 (List.mem_map_of_mem Prod.fst hpr))
      rw [he] at hsome
      cases hsome
    · rw [htt] at he
      unfold evalTests at he
      dsimp only [subtreeAtL] at he
      rw [if_neg (by simp; exact fun hx => hn hx.symm)] at he
      cases he
  | some b =>
    cases b with
    | false => rfl
    | true =>
      have hn : r.tree.name = LTree.name t := by
        rw [htt] at he
        unfold evalTests at he
        dsimp only [subtreeAtL] at he
        by_cases hb : (LTree.name t == r.tree.name) = true
        · exact (by simpa using hb : LTree.name t = r.tree.name).symm
        · rw [if_neg (by simpa using hb)] at he
          cases he
      have hkids := kidsAt_isSome t (ruleKids s r) (H hn).2
      cases hk : kidsAt t (ruleKids s r) with
      | none => rw [hk] at hkids; cases hkids
      | some kids =>
        dsimp only
        split
        · rfl
        · rfl

theorem processRules_some (s : BurgSystem) (A : Nat → LTree → Bool) :
    ∀ (rules : List Rule) (t : LTree),
    (∀ r ∈ rules, r.tree.name = LTree.name t →
      (∀ p ∈ (ruleTests s r).map Prod.fst, (subtreeAtL t p).isSome = true) ∧
      (∀ p ∈ ruleKids s r, (subtreeAtL t p).isSome = true)) →
    ∃ t2, processRules s A t rules = some t2 ∧ LTree.name t2 = LTree.name t ∧
      LTree.value t2 = LTree.value t ∧ LTree.children t2 = LTree.children t
  | [], t, _ => ⟨t, rfl, rfl, rfl, rfl⟩
  | r :: rs, t, H => by
    have h1 := processRule_isSome s A t r (fun hn => H r (List.mem_cons_self _ _) hn)
    cases hp : processRule s A t r with
    | none => rw [hp] at h1; cases h1
    | some t2 =>
      obtain ⟨hnm, hv, hcs⟩ := processRule_shape s A t r t2 hp
      have H2 : ∀ r2 ∈ rs, r2.tree.name = LTree.name t2 →
          (∀ p ∈ (ruleTests s r2).map Prod.fst, (subtreeAtL t2 p).isSome = true) ∧
          (∀ p ∈ ruleKids s r2, (subtreeAtL t2 p).isSome = true) := by
        intro r2 hr2 hn2
        rw [hnm] at hn2
        obtain ⟨ha, hb⟩ := H r2 (List.mem_cons_of_mem _ hr2) hn2
        constructor
        · intro p hp2
          rw [subtreeAtL_isSome_of_children t2 t hcs p]
          exact ha p hp2
        · intro p hp2
          rw [subtreeAtL_isSome_of_children t2 t hcs p]
          exact hb p hp2
      obtain ⟨t3, h3, hn3, hv3, hc3⟩ := processRules_some s A rs t2 H2
      refine ⟨t3, ?_, ?_, ?_, ?_⟩
      · show processRules s A t (r :: rs) = some t3
        unfold processRules
        rw [hp]
        exact h3
      · rw [hn3, hnm]
      · rw [hv3, hv]
      · rw [hc3, hcs]

theorem nodeRulesOK_to_H (s : BurgSystem) (n : String) (v : Int) (cs : List TTree)
    (lcs : List LTree) (hOK : nodeRulesOK s (TTree.node n v cs) = true)
    (herase : eraseLList lcs = cs) :
    ∀ r ∈ labelRules s, r.tree.name = LTree.name (LTree.node n v lcs []) →
      (∀ p ∈ (ruleTests s r).map Prod.fst,
        (subtreeAtL (LTree.node n v lcs []) p).isSome = true) ∧
      (∀ p ∈ ruleKids s r, (subtreeAtL (LTree.node n v lcs []) p).isSome = true) := by
  intro r hr hn
  have h1 := (List.all_eq_true.mp hOK) r hr
  have hb : (r.tree.name == TTree.name (TTree.node n v cs)) = true := by
    simpa using hn
  rw [hb] at h1
  have h2 : pathsOK (TTree.node n v cs) ((ruleTests s r).map Prod.fst) = true ∧
      pathsOK (TTree.node n v cs) (ruleKids s r) = true := by
    simpa using h1
  have herase2 : eraseL (LTree.node n v lcs []) = TTree.node n v cs := by
    show TTree.node n v (eraseLList lcs) = TTree.node n v cs
    rw [herase]
  constructor
  · intro p hp
    have h3 := (List.all_eq_true.mp h2.1) p hp
    rw [← herase2, subtreeAtT_eraseL_isSome p (LTree.node n v lcs [])] at h3
    exact h3
  · intro p hp
    have h3 := (List.all_eq_true.mp h2.2) p hp
    rw [← herase2, subtreeAtT_eraseL_isSome p (LTree.node n v lcs [])] at h3
    exact h3

mutual
theorem label_arity (s : BurgSystem) (A : Nat → LTree → Bool) :
    ∀ t : TTree, arityOK s t = true →
      ∃ lt, burm_label s A t = some lt ∧ eraseL lt = t
  | .node n v cs, hok => by
    obtain ⟨h1, h2⟩ : nodeRulesOK s (.node n v cs) = true ∧ arityOKList s cs = true := by
      simpa [arityOK] using hok
    obtain ⟨lcs, hlcs, herase⟩ := label_arity_list s A cs h2
    obtain ⟨t2, ht2, hn2, hv2, hc2⟩ := processRules_some s A (labelRules s)
      (LTree.node n v lcs []) (nodeRulesOK_to_H s n v cs lcs h1 herase)
    refine ⟨t2, ?_, ?_⟩
    · show burm_label s A (.node n v cs) = some t2
      unfold burm_label
      rw [hlcs]
      exact ht2
    · cases t2 with
      | node n2 v2 cs2 st2 =>
        show TTree.node n2 v2 (eraseLList cs2) = TTree.node n v cs
        rw [show n2 = n from hn2, show v2 = v from hv2, show cs2 = lcs from hc2, herase]

theorem label_arity_list (s : BurgSystem) (A : Nat → LTree → Bool) :
    ∀ ts : List TTree, arityOKList s ts = true →
      ∃ lts, burm_label_list s A ts = some lts ∧ eraseLList lts = ts
  | [], _ => ⟨[], rfl, rfl⟩
  | c :: ts, hok => by
    obtain ⟨h1, h2⟩ : arityOK s c = true ∧ arityOKList s ts = true := by
      simpa [arityOKList] using hok
    obtain ⟨lc, hlc, he1⟩ := label_arity s A c h1
    obtain ⟨lts, hlts, he2⟩ := label_arity_list s A ts h2
    refine ⟨lc :: lts, ?_, ?_⟩
    · unfold burm_label_list
      rw [hlc, hlts]
    · show eraseL lc :: eraseLList lts = c :: ts
      rw [he1, he2]
end

/-- Claim C5 amended: the label phase completes and assigns a State to every
node for every tree in which each node that a compiled rule case addresses
(by name) has children at every position probed by that rule's structural
test and hole paths; the generated code probes hole positions
unconditionally once the structural test passes, so this arity condition is
what rules out the child-index failure. -/
theorem C5_label_amended :
    ∀ (s : BurgSystem) (A : Nat → LTree → Bool) (t : TTree),
      arityOK s t = true → ∃ lt, burm_label s A t = some lt ∧ eraseL lt = t :=
  label_arity

/-- Claim C5 counterexample: with the rule `reg -> ADD(reg, reg)`, labeling
the childless node `ADD()` fails, because the structural test is a bare name
check and the generated kid function then indexes the missing children. -/
theorem C5_missing_child_cex :
    burm_label sysAdd accTrue (TTree.node "ADD" 0 []) = none := rfl

/-- Witness for C5 (amended): the example tree satisfies the arity condition
and labels completely, reproducing the input shape. -/
theorem C5_witness :
    burm_label sysEx accTrue treeEx =
      some (LTree.node "ADD" 0
        [LTree.node "CONST" 2 [] [("reg", 1, 1)], LTree.node "CONST" 3 [] [("reg", 1, 1)]]
        [("reg", 4, 2)]) ∧
    eraseL (LTree.node "ADD" 0
        [LTree.node "CONST" 2 [] [("reg", 1, 1)], LTree.node "CONST" 3 [] [("reg", 1, 1)]]
        [("reg", 4, 2)]) = treeEx := by
  obtain ⟨lt, hlt, he⟩ := C5_label_amended sysEx accTrue treeEx rfl
  have h2 : some lt =
      some (LTree.node "ADD" 0
        [LTree.node "CONST" 2 [] [("reg", 1, 1)], LTree.node "CONST" 3 [] [("reg", 1, 1)]]
        [("reg", 4, 2)]) := by
    rw [← hlt]
    rfl
  obtain rfl := Option.some.inj h2
  exact ⟨hlt, he⟩

end PyBurg
